import Mathlib

/-!
Verification development for the videobatch repository.

The repository ships two variants of the same tool:
* `videobatch/__init__.py` — the rewritten package variant;
* `videobatch.py`          — the legacy single-file variant.

This file gives a shallow embedding of the parts relevant to the claims:
the precomputed hue/luminance color-space tables (`_initialize_tables`),
the region (ROI) abstraction, the color classes (`ColorMask`/`Mask`), the
per-frame tracking update of the `Pixylation` engine in both variants, the
output naming and row formatting of `__start__`/`__update__`, and the
`Processor` single-file lifecycle.  Machine floats are embedded as exact
rationals; the decimal literals of the source (0.212, 0.701, 0.087) denote
the exact rationals they are written as.
-/

namespace VideoBatch

/-- An 8-bit RGB pixel; the tables index each channel over [0,255]. -/
structure Pixel where
  r : ℕ
  g : ℕ
  b : ℕ
deriving DecidableEq, Repr

/-- `_RGB.max(axis=3)` at one pixel. -/
def max3 (p : Pixel) : ℕ := max p.r (max p.g p.b)

/-- `_RGB.min(axis=3)` at one pixel. -/
def min3 (p : Pixel) : ℕ := min p.r (min p.g p.b)

/-- `numpy.around` for a scalar: round half to even (banker's rounding). -/
def roundHE (q : ℚ) : ℤ :=
  let f : ℤ := ⌊q⌋
  let frac : ℚ := q - (f : ℚ)
  if frac < 1/2 then f
  else if 1/2 < frac then f + 1
  else if f % 2 = 0 then f else f + 1

/-- The hue table entry `_Htable[r,g,b]` built by `_initialize_tables`
(identical in both source variants).  The integer test `D == 0` is embedded
as `max3 p = min3 p`; the three masked assignments apply in source order
(min = Blue first, then min = Red, then the remaining min = Green), each
dividing by the chroma `D = max - min` over the rationals and rounding with
`numpy.around`.  No reduction mod 360 appears in the source. -/
def hue (p : Pixel) : ℤ :=
  let M := max3 p
  let m := min3 p
  let D : ℚ := (M : ℚ) - (m : ℚ)
  if M = m then -1
  else if m = p.b then roundHE (60 * (1 + ((p.g : ℚ) - (p.r : ℚ)) / D))
  else if m = p.r then roundHE (60 * (3 + ((p.b : ℚ) - (p.g : ℚ)) / D))
  else roundHE (60 * (5 + ((p.r : ℚ) - (p.b : ℚ)) / D))

/-- The luminance table entry `_Ltable[r,g,b]`:
`(0.212*R + 0.701*G + 0.087*B)/255`, kept exact over the rationals. -/
def lum (p : Pixel) : ℚ :=
  (0.212 * (p.r : ℚ) + 0.701 * (p.g : ℚ) + 0.087 * (p.b : ℚ)) / 255

/-- A named hue interval (`ColorMask` in the package variant, `Mask` in the
legacy variant: the same `onset`/`offset` fields and the same `apply`
predicate).  The representative display color is produced once by the
external matplotlib `hsv` colormap; it is carried here as data. -/
structure ColorMask where
  onset : ℚ
  offset : ℚ
  color : ℕ × ℕ × ℕ
deriving DecidableEq, Repr

/-- `ColorMask.apply(hues)` at one pixel:
`logical_and(hues >= onset, hues < offset)`; numpy compares the integer hue
against the float bounds. -/
def ColorMask.matchesB (cm : ColorMask) (px : Pixel) : Bool :=
  decide (cm.onset ≤ (hue px : ℚ) ∧ (hue px : ℚ) < cm.offset)

/-- The package variant's `ROI`: the aligned coordinate vectors
`xpos`/`ypos`, embedded as one list of (x, y) pairs. -/
structure ROI where
  coords : List (ℕ × ℕ)
deriving DecidableEq, Repr

/-- Package-variant `ROI.is_empty`: `self.xpos.size == 0`. -/
def ROI.is_empty (r : ROI) : Bool := r.coords.length == 0

/-- `RectangularROI.__init__`: `meshgrid(arange(x, x+w), arange(y, y+h),
indexing='xy')` flattened in C order; entry `j*w + k` is `(x+k, y+j)`. -/
def coordsRect (x y w h : ℕ) : List (ℕ × ℕ) :=
  (List.range h).flatMap fun j => (List.range w).map fun k => (x + k, y + j)

/-- A `RectangularROI` built from the specs dictionary `{x,y,w,h}`. -/
def mkRectROI (x y w h : ℕ) : ROI := ⟨coordsRect x y w h⟩

/-- A decoded frame, total over coordinates (the engine reads it only at
region coordinates, which lie inside the frame). -/
abbrev Frame := ℕ × ℕ → Pixel

/-- `ROI.crop(frame)`: the region's pixel vector aligned with `coords`
(`frame[ypos, xpos]`). -/
def ROI.crop (r : ROI) (frame : Frame) : List Pixel := r.coords.map frame

/-- The coordinates of the region whose cropped pixel the class matches.
numpy boolean-mask indexing (`xpos[roi_match]`, `ypos[roi_match]`, and
`roi_L[roi_match]`) keeps order, so it is the filter of `coords` by the
class predicate on the cropped pixel. -/
def matchedCoords (r : ROI) (frame : Frame) (cm : ColorMask) : List (ℕ × ℕ) :=
  r.coords.filter fun p => cm.matchesB (frame p)

/-- `(vals*weights).sum()/weights.sum()` — the reduction both variants use
for the weighted centroid.  Division is the rationals' total division; the
engine divides only by a sum of matched luminances. -/
def wmean (vals ws : List ℚ) : ℚ :=
  (List.zipWith (fun a b => a * b) vals ws).sum / ws.sum

/-- One emitted numeric field: a float that is either NaN or a number. -/
inductive Value where
  | nan : Value
  | num : ℚ → Value
deriving DecidableEq, Repr

/-- The first of the two values the package variant appends for one color
class within one region: `NaN` when no pixel matches
(`count_nonzero(roi_match) == 0`), else
`xrepr + 1` with `xrepr = (match_x*match_weight).sum()/match_weight.sum()`. -/
def classValuesX (r : ROI) (frame : Frame) (cm : ColorMask) : Value :=
  let m := matchedCoords r frame cm
  if m.isEmpty then Value.nan
  else Value.num (wmean (m.map fun p => (p.1 : ℚ)) (m.map fun p => lum (frame p)) + 1)

/-- The second of the two values: `yrepr + 1` over `match_y`. -/
def classValuesY (r : ROI) (frame : Frame) (cm : ColorMask) : Value :=
  let m := matchedCoords r frame cm
  if m.isEmpty then Value.nan
  else Value.num (wmean (m.map fun p => (p.2 : ℚ)) (m.map fun p => lum (frame p)) + 1)

/-- The flat `values` list of one region's row: two fields per color class,
classes in declaration order. -/
def regionValues (classes : List ColorMask) (r : ROI) (frame : Frame) : List Value :=
  classes.flatMap fun cm => [classValuesX r frame cm, classValuesY r frame cm]

/-- An annotated-frame pixel value (`M` has integer dtype, 3 channels). -/
abbrev Color := ℕ × ℕ × ℕ

/-- The all-zero background of `M = zeros(frame.shape)`. -/
def zeroColor : Color := (0, 0, 0)

/-- `ROI.mark(M, mask, value)`: write `value` at every coordinate of the
region whose mask entry is true (`M[ypos[mask], xpos[mask]] = value`). -/
def ROI.mark (r : ROI) (frame : Frame) (cm : ColorMask) (M : ℕ × ℕ → Color) :
    ℕ × ℕ → Color :=
  fun p => if p ∈ matchedCoords r frame cm then cm.color else M p

/-- One open region's pass over the classes in `__update__`:
`roi.mark(M, roi_match, colormask.color)` runs only inside the
`count_nonzero(roi_match) > 0` branch. -/
def markRegion (r : ROI) (frame : Frame) (classes : List ColorMask)
    (M : ℕ × ℕ → Color) : ℕ × ℕ → Color :=
  classes.foldl
    (fun acc cm => if (matchedCoords r frame cm).isEmpty then acc else r.mark frame cm acc) M

/-- The accumulated annotated frame of one `__update__` call: `M` starts at
zeros, then every open region marks every matching class, regions and
classes in declaration order. -/
def finalMask (regions : List ROI) (classes : List ColorMask) (frame : Frame) :
    ℕ × ℕ → Color :=
  regions.foldl (fun M r => markRegion r frame classes M) fun _ => zeroColor

/-- The rows one `__update__` call writes, one per region with an open
result sink (regions whose sink is missing are skipped by `continue`):
the frame index `i` and the region's values. -/
def updateRows (regions : List ROI) (classes : List ColorMask) (frame : Frame)
    (i : ℕ) : List (ℕ × List Value) :=
  regions.map fun r => (i, regionValues classes r frame)

/-- The legacy variant's rectangular `ROI` (`{x,y,w,h}`, defaults 0,0,1,1). -/
structure LegacyROI where
  x : ℕ
  y : ℕ
  w : ℕ
  h : ℕ
deriving DecidableEq, Repr

/-- Legacy `ROI.is_empty`: `(w * h) <= 1`. -/
def LegacyROI.is_empty (roi : LegacyROI) : Bool := decide (roi.w * roi.h ≤ 1)

/-- Legacy `ROI.apply(values)` zeroes every mask entry outside rows
`[y, y+h)` and columns `[x, x+w)`: a full-frame position survives exactly
when it lies in the rectangle. -/
def LegacyROI.containsB (roi : LegacyROI) (p : ℕ × ℕ) : Bool :=
  decide (roi.x ≤ p.1 ∧ p.1 < roi.x + roi.w ∧ roi.y ≤ p.2 ∧ p.2 < roi.y + roi.h)

/-- The legacy `__update__` matched positions for one class and one region:
the full-frame mask `masks[name].apply(H)` clipped by `roi.apply`, read off
the full-frame grid (`meshgrid` over `arange(1, w+1)`/`arange(1, h+1)`),
indexed here by 0-based position `(c, j)` whose grid values are `c+1`,
`j+1`. -/
def legacyMatched (W H : ℕ) (roi : LegacyROI) (frame : Frame) (cm : ColorMask) :
    List (ℕ × ℕ) :=
  (coordsRect 0 0 W H).filter fun p => roi.containsB p && cm.matchesB (frame p)

/-- Legacy first field per class: `NaN` when no clipped match, else
`(_x*_weight).sum()/_weight.sum()` with `_x` the 1-based grid values; the
legacy variant appends the quotient without adding 1. -/
def legacyClassValuesX (W H : ℕ) (roi : LegacyROI) (frame : Frame)
    (cm : ColorMask) : Value :=
  let m := legacyMatched W H roi frame cm
  if m.isEmpty then Value.nan
  else Value.num (wmean (m.map fun p => ((p.1 : ℚ) + 1)) (m.map fun p => lum (frame p)))

/-- Legacy second field per class, over the 1-based `_y` grid values. -/
def legacyClassValuesY (W H : ℕ) (roi : LegacyROI) (frame : Frame)
    (cm : ColorMask) : Value :=
  let m := legacyMatched W H roi frame cm
  if m.isEmpty then Value.nan
  else Value.num (wmean (m.map fun p => ((p.2 : ℚ) + 1)) (m.map fun p => lum (frame p)))

/-- The legacy `values` list of one region's row, classes in `_masknames`
declaration order. -/
def legacyRegionValues (W H : ℕ) (roi : LegacyROI) (frame : Frame)
    (classes : List ColorMask) : List Value :=
  classes.flatMap fun cm =>
    [legacyClassValuesX W H roi frame cm, legacyClassValuesY W H roi frame cm]

/-- Python `','.join`. -/
def commaJoin : List String → String
  | [] => ""
  | [s] => s
  | s :: rest => s ++ "," ++ commaJoin rest

/-- `_mask_entries(maskname)`: the format string `{0}_CM_X,{0}_CM_Y`
applied to the class name. -/
def maskEntries (m : String) : String := m ++ "_CM_X," ++ m ++ "_CM_Y"

/-- The header `__start__` writes to each result sink (the trailing newline
is written separately):
`'Slice,' + ','.join(_mask_entries(m) for m in masknames)`. -/
def headerLine (names : List String) : String :=
  "Slice," ++ commaJoin (names.map maskEntries)

/-- `os.path.join(resultdir, "Results_" + basename + "_" + roiname + ".csv")`
on a POSIX path. -/
def resultPath (resultdir basename roiname : String) : String :=
  resultdir ++ "/" ++ ("Results_" ++ basename ++ "_" ++ roiname ++ ".csv")

/-- `os.path.join(maskdir, "MASK_" + basename + ".mp4")` — the annotated
video sink the package variant opens. -/
def maskPath (maskdir basename : String) : String :=
  maskdir ++ "/" ++ ("MASK_" ++ basename ++ ".mp4")

/-- The named regions `__start__` opens result sinks for: the loop skips a
region with `continue` when `roi.is_empty()`. -/
def startOpenRegions (regions : List (String × ROI)) : List (String × ROI) :=
  regions.filter fun nr => !(nr.2.is_empty)

/-- The result-sink paths `__start__` opens, in region declaration order. -/
def startResultPaths (resultdir basename : String)
    (regions : List (String × ROI)) : List String :=
  (startOpenRegions regions).map fun nr => resultPath resultdir basename nr.1

/-- One decimal digit character. -/
def digitChar (n : ℕ) : Char := Char.ofNat (48 + n % 10)

/-- The 4 digits after the decimal point, most significant first. -/
def frac4 (m : ℕ) : String :=
  String.mk [digitChar (m / 1000), digitChar (m / 100), digitChar (m / 10), digitChar m]

/-- The format `{0:.4f}`: fixed point with exactly 4 fractional digits,
rounding half to even at the fourth decimal (CPython float formatting),
embedded exactly over the rationals; `float('nan')` formats as `nan`. -/
def fmt4 : Value → String
  | Value.nan => "nan"
  | Value.num q =>
    let n : ℤ := roundHE (q * 10000)
    let a : ℕ := n.natAbs
    (if n < 0 then "-" else "") ++ toString (a / 10000) ++ "." ++ frac4 (a % 10000)

/-- One data row of `__update__` (the trailing newline left implicit):
`"{0},".format(i) + ','.join("{0:.4f}".format(v) for v in values)`. -/
def dataRow (i : ℕ) (vals : List Value) : String :=
  toString i ++ "," ++ commaJoin (vals.map fmt4)

/-- What one `Processor` run leaves behind:
`with Processor(proc, path) as reader: for i, frame in reader: update(i, frame)`. -/
structure ProcResult where
  readerOpened : Bool
  framesRead : ℕ
  doneCalled : Bool
  readerClosed : Bool
  raised : Bool
deriving DecidableEq, Repr

/-- The `Processor` single-file lifecycle.  `startRaises`: the engine's
`__start__` hook raises inside `__enter__` (after `FFmpegReader` opened);
`updateRaisesAt`: the first frame index whose `__update__` raises, if any;
`doneRaises`: `__done__` raises inside `__exit__`.

Python's `with` statement calls `__exit__` only when `__enter__` returned
normally, so when `__start__` raises, the exception propagates and
`force_close(self.reader)` never runs.  Otherwise `__exit__` runs: it wraps
`self.proc.__done__` in try/except/finally — an exception from `__done__`
is printed and swallowed (`return False` with no live exception), the
reader is closed in the `finally`, and an exception raised inside the loop
body keeps propagating (`return False` under a live exception). -/
def runProcessor (numFrames : ℕ) (startRaises : Bool) (updateRaisesAt : Option ℕ)
    (doneRaises : Bool) : ProcResult :=
  if startRaises then
    { readerOpened := true, framesRead := 0, doneCalled := false
      readerClosed := false, raised := true }
  else
    let bodyRaised : Bool := match updateRaisesAt with
      | some k => decide (k < numFrames)
      | none => false
    let frames : ℕ := match updateRaisesAt with
      | some k => min (k + 1) numFrames
      | none => numFrames
    { readerOpened := true, framesRead := frames, doneCalled := true
      readerClosed := true, raised := bodyRaised || (doneRaises && false) }

/-! ### Rounding lemmas -/

theorem roundHE_eq_floor_of_lt {q : ℚ} {f : ℤ} (h1 : ⌊q⌋ = f)
    (h2 : q - (f : ℚ) < 1/2) : roundHE q = f := by
  unfold roundHE
  rw [h1, if_pos h2]

theorem roundHE_eq_succ_of_gt {q : ℚ} {f : ℤ} (h1 : ⌊q⌋ = f)
    (h2 : 1/2 < q - (f : ℚ)) : roundHE q = f + 1 := by
  unfold roundHE
  rw [h1, if_neg (not_lt.mpr h2.le), if_pos h2]

theorem le_roundHE {a : ℤ} {q : ℚ} (h : (a : ℚ) ≤ q) : a ≤ roundHE q := by
  have hf : a ≤ ⌊q⌋ := Int.le_floor.mpr h
  unfold roundHE
  dsimp only
  split_ifs <;> omega

theorem roundHE_le {b : ℤ} {q : ℚ} (h : q ≤ (b : ℚ)) : roundHE q ≤ b := by
  have hfb : ⌊q⌋ ≤ b := by
    have h2 := Int.floor_le_floor h
    rwa [Int.floor_intCast] at h2
  have hfq : (⌊q⌋ : ℚ) ≤ q := Int.floor_le q
  unfold roundHE
  dsimp only
  split_ifs with h1 h2 h3
  · exact hfb
  · have hlt : (⌊q⌋ : ℚ) < (b : ℚ) := by linarith
    have : ⌊q⌋ < b := by exact_mod_cast hlt
    omega
  · exact hfb
  · have heq : q - (⌊q⌋ : ℚ) = 1/2 := le_antisymm (not_lt.mp h2) (not_lt.mp h1)
    have hlt : (⌊q⌋ : ℚ) < (b : ℚ) := by linarith
    have : ⌊q⌋ < b := by exact_mod_cast hlt
    omega

/-! ### Bounds for the hue formula's ratios -/

theorem ratio_le_one {a b M m : ℕ} (haM : a ≤ M) (hmb : m ≤ b) (hlt : m < M) :
    ((a : ℚ) - (b : ℚ)) / ((M : ℚ) - (m : ℚ)) ≤ 1 := by
  have hD : (0 : ℚ) < (M : ℚ) - (m : ℚ) := by
    have : (m : ℚ) < (M : ℚ) := by exact_mod_cast hlt
    linarith
  rw [div_le_one hD]
  have h1 : (a : ℚ) ≤ (M : ℚ) := by exact_mod_cast haM
  have h2 : (m : ℚ) ≤ (b : ℚ) := by exact_mod_cast hmb
  linarith

theorem neg_one_le_ratio {a b M m : ℕ} (hma : m ≤ a) (hbM : b ≤ M) (hlt : m < M) :
    (-1 : ℚ) ≤ ((a : ℚ) - (b : ℚ)) / ((M : ℚ) - (m : ℚ)) := by
  have hD : (0 : ℚ) < (M : ℚ) - (m : ℚ) := by
    have : (m : ℚ) < (M : ℚ) := by exact_mod_cast hlt
    linarith
  have h := ratio_le_one hbM hma hlt
  have hflip : ((a : ℚ) - (b : ℚ)) / ((M : ℚ) - (m : ℚ))
      = -(((b : ℚ) - (a : ℚ)) / ((M : ℚ) - (m : ℚ))) := by ring
  rw [hflip]
  linarith

/-! ### Hue lemmas -/

theorem channel_bounds (p : Pixel) :
    min3 p ≤ p.r ∧ p.r ≤ max3 p ∧ min3 p ≤ p.g ∧ p.g ≤ max3 p ∧
    min3 p ≤ p.b ∧ p.b ≤ max3 p := by
  unfold max3 min3
  omega

theorem max3_eq_min3_iff (p : Pixel) :
    max3 p = min3 p ↔ p.r = p.g ∧ p.g = p.b := by
  unfold max3 min3
  omega

/-- Range of the table entries for chromatic pixels: each branch's real
argument lies in [0,120], [120,240] or [240,360], so the rounded value is
an integer in [0,360]; the bound 360 is attained (see `hue_255_0_1`). -/
theorem hue_bounds (p : Pixel) (h : ¬(p.r = p.g ∧ p.g = p.b)) :
    0 ≤ hue p ∧ hue p ≤ 360 := by
  obtain ⟨h1r, h2r, h1g, h2g, h1b, h2b⟩ := channel_bounds p
  have hne : ¬ max3 p = min3 p := fun hc => h ((max3_eq_min3_iff p).mp hc)
  have hlt : min3 p < max3 p := by
    unfold max3 min3 at *
    omega
  unfold hue
  rw [if_neg hne]
  split_ifs with hb hr
  · constructor
    · apply le_roundHE
      have := neg_one_le_ratio h1g h2r hlt
      push_cast
      linarith
    · apply roundHE_le
      have := ratio_le_one h2g h1r hlt
      push_cast
      linarith
  · constructor
    · apply le_roundHE
      have := neg_one_le_ratio h1b h2g hlt
      push_cast
      linarith
    · apply roundHE_le
      have := ratio_le_one h2b h1g hlt
      push_cast
      linarith
  · constructor
    · apply le_roundHE
      have := neg_one_le_ratio h1r h2b hlt
      push_cast
      linarith
    · apply roundHE_le
      have := ratio_le_one h2r h1b hlt
      push_cast
      linarith

/-- The sentinel −1 is stored exactly for the achromatic pixels. -/
theorem hue_eq_neg_one_iff (p : Pixel) :
    hue p = -1 ↔ p.r = p.g ∧ p.g = p.b := by
  constructor
  · intro hv
    by_contra hc
    have := hue_bounds p hc
    omega
  · intro hc
    unfold hue
    rw [if_pos ((max3_eq_min3_iff p).mpr hc)]

/-- Concrete table entry: pure red has hue 0. -/
theorem hue_pure_red : hue ⟨255, 0, 0⟩ = 0 := by
  have h0 : roundHE (0 : ℚ) = 0 := by
    apply roundHE_eq_floor_of_lt (by norm_num) (by norm_num)
  norm_num [hue, max3, min3, h0]

/-- Concrete table entry: the near-red pixel (255,0,1) falls in the
min = Green branch; its exact hue 6116/17 ≈ 359.76 rounds up to 360. -/
theorem hue_255_0_1 : hue ⟨255, 0, 1⟩ = 360 := by
  have h1 : ⌊(6116 : ℚ)/17⌋ = 359 := by
    rw [Int.floor_eq_iff]
    norm_num
  have h2 : roundHE ((6116 : ℚ)/17) = 360 := by
    have h3 := roundHE_eq_succ_of_gt h1 (by norm_num)
    norm_num at h3
    exact h3
  have harg : (60 : ℚ) * (5 + (((255 : ℕ) : ℚ) - ((1 : ℕ) : ℚ)) / (((255 : ℕ) : ℚ) - ((0 : ℕ) : ℚ))) = 6116/17 := by
    norm_num
  norm_num [hue, max3, min3, harg, h2]

/-! ### Luminance lemmas -/

theorem lum_pos {p : Pixel} (h : ¬(p.r = p.g ∧ p.g = p.b)) : 0 < lum p := by
  unfold lum
  apply div_pos ?_ (by norm_num)
  have hr : (0 : ℚ) ≤ (p.r : ℚ) := Nat.cast_nonneg _
  have hg : (0 : ℚ) ≤ (p.g : ℚ) := Nat.cast_nonneg _
  have hb : (0 : ℚ) ≤ (p.b : ℚ) := Nat.cast_nonneg _
  have hnz : p.r ≠ 0 ∨ p.g ≠ 0 ∨ p.b ≠ 0 := by
    by_contra hc
    push_neg at hc
    exact h (by omega)
  rcases hnz with h1 | h1 | h1
  · have : (1 : ℚ) ≤ (p.r : ℚ) := by exact_mod_cast Nat.one_le_iff_ne_zero.mpr h1
    nlinarith
  · have : (1 : ℚ) ≤ (p.g : ℚ) := by exact_mod_cast Nat.one_le_iff_ne_zero.mpr h1
    nlinarith
  · have : (1 : ℚ) ≤ (p.b : ℚ) := by exact_mod_cast Nat.one_le_iff_ne_zero.mpr h1
    nlinarith

/-! ### Matching lemmas -/

theorem matchesB_iff {cm : ColorMask} {px : Pixel} :
    cm.matchesB px = true ↔ cm.onset ≤ (hue px : ℚ) ∧ (hue px : ℚ) < cm.offset := by
  simp [ColorMask.matchesB]

theorem mem_matchedCoords {r : ROI} {frame : Frame} {cm : ColorMask} {p : ℕ × ℕ} :
    p ∈ matchedCoords r frame cm ↔ p ∈ r.coords ∧ cm.matchesB (frame p) = true := by
  simp [matchedCoords, List.mem_filter]

theorem lum_pos_of_matchesB {cm : ColorMask} {px : Pixel} (h0 : 0 ≤ cm.onset)
    (hm : cm.matchesB px = true) : 0 < lum px := by
  obtain ⟨h1, _⟩ := matchesB_iff.mp hm
  have hnn : (0 : ℚ) ≤ (hue px : ℚ) := le_trans h0 h1
  have hz : (0 : ℤ) ≤ hue px := by exact_mod_cast hnn
  apply lum_pos
  intro hgray
  rw [(hue_eq_neg_one_iff px).mpr hgray] at hz
  omega

/-! ### List computation lemmas -/

theorem zipWith_mul_map {α : Type} (l : List α) (f g : α → ℚ) :
    List.zipWith (fun a b => a * b) (l.map f) (l.map g) = l.map fun x => f x * g x := by
  induction l with
  | nil => rfl
  | cons a t ih => simp [ih]

theorem wmean_map {α : Type} (l : List α) (f g : α → ℚ) :
    wmean (l.map f) (l.map g) = (l.map fun x => f x * g x).sum / (l.map g).sum := by
  rw [wmean, zipWith_mul_map]

theorem sumLum_pos {m : List (ℕ × ℕ)} {frame : Frame} (hne : m ≠ [])
    (hpos : ∀ p ∈ m, 0 < lum (frame p)) :
    0 < (m.map fun p => lum (frame p)).sum := by
  apply List.sum_pos
  · intro x hx
    obtain ⟨p, hp, rfl⟩ := List.mem_map.mp hx
    exact hpos p hp
  · simpa using hne

theorem flatMap_pair_get_even {α β : Type} (l : List α) (f g : α → β) (k : ℕ) :
    (l.flatMap fun a => [f a, g a]).get? (2 * k) = (l.get? k).map f := by
  induction l generalizing k with
  | nil => simp
  | cons a t ih =>
    cases k with
    | zero => simp
    | succ n =>
      have h2 : 2 * (n + 1) = (2 * n) + 1 + 1 := by ring
      simp only [List.flatMap_cons, List.cons_append, List.nil_append, h2,
        List.get?_cons_succ, List.get?]
      exact ih n

theorem flatMap_pair_get_odd {α β : Type} (l : List α) (f g : α → β) (k : ℕ) :
    (l.flatMap fun a => [f a, g a]).get? (2 * k + 1) = (l.get? k).map g := by
  induction l generalizing k with
  | nil => simp
  | cons a t ih =>
    cases k with
    | zero => simp
    | succ n =>
      have h2 : 2 * (n + 1) + 1 = (2 * n + 1) + 1 + 1 := by ring
      simp only [List.flatMap_cons, List.cons_append, List.nil_append, h2,
        List.get?_cons_succ, List.get?]
      exact ih n

/-! ### Rectangle coordinate lemmas -/

theorem coordsRect_length (x y w h : ℕ) : (coordsRect x y w h).length = w * h := by
  unfold coordsRect
  rw [List.length_flatMap]
  have hm : (List.range h).map (List.length ∘ fun j => (List.range w).map fun k => (x + k, y + j))
      = (List.range h).map fun _ => w := by
    apply List.map_congr_left
    intro j _
    simp
  rw [hm, List.map_const', List.sum_replicate, List.length_range, smul_eq_mul]
  ring

theorem mem_coordsRect {x y w h a b : ℕ} :
    (a, b) ∈ coordsRect x y w h ↔ x ≤ a ∧ a < x + w ∧ y ≤ b ∧ b < y + h := by
  unfold coordsRect
  simp only [List.mem_flatMap, List.mem_map, List.mem_range, Prod.mk.injEq]
  constructor
  · rintro ⟨j, hj, k, hk, rfl, rfl⟩
    omega
  · rintro ⟨h1, h2, h3, h4⟩
    exact ⟨b - y, by omega, a - x, by omega, by omega, by omega⟩

theorem coordsRect_nodup (x y w h : ℕ) : (coordsRect x y w h).Nodup := by
  unfold coordsRect
  rw [List.nodup_flatMap]
  constructor
  · intro j _
    apply List.Nodup.map ?_ (List.nodup_range w)
    intro k1 k2 hk
    simpa using hk
  · apply List.Pairwise.imp ?_ (List.pairwise_lt_range h)
    intro j1 j2 hj
    rw [Function.onFun, List.disjoint_left]
    rintro ⟨a, b⟩ h1 h2
    simp only [List.mem_map, List.mem_range, Prod.mk.injEq] at h1 h2
    omega

/-! ### Marking lemmas -/

theorem mark_apply_of_not_matched {r : ROI} {frame : Frame} {cm : ColorMask}
    {M : ℕ × ℕ → Color} {p : ℕ × ℕ} (h : p ∉ matchedCoords r frame cm) :
    r.mark frame cm M p = M p := by
  unfold ROI.mark
  rw [if_neg h]

theorem markRegion_apply_of_none {r : ROI} {frame : Frame}
    {classes : List ColorMask} {M : ℕ × ℕ → Color} {p : ℕ × ℕ}
    (h : ∀ cm ∈ classes, p ∉ matchedCoords r frame cm) :
    markRegion r frame classes M p = M p := by
  induction classes generalizing M with
  | nil => rfl
  | cons cm t ih =>
    unfold markRegion
    rw [List.foldl_cons]
    show markRegion r frame t _ p = M p
    rw [ih fun c hc => h c (List.mem_cons_of_mem cm hc)]
    split_ifs with hc
    · rfl
    · exact mark_apply_of_not_matched (h cm (List.mem_cons_self cm t))

theorem markRegion_apply_of_last {r : ROI} {frame : Frame} {cm : ColorMask}
    {l1 l2 : List ColorMask} {M : ℕ × ℕ → Color} {p : ℕ × ℕ}
    (hmem : p ∈ matchedCoords r frame cm)
    (hrest : ∀ c ∈ l2, p ∉ matchedCoords r frame c) :
    markRegion r frame (l1 ++ cm :: l2) M p = cm.color := by
  unfold markRegion
  rw [List.foldl_append, List.foldl_cons]
  have hne : ¬ (matchedCoords r frame cm).isEmpty := by
    simp only [List.isEmpty_iff]
    intro hc
    rw [hc] at hmem
    exact absurd hmem (List.not_mem_nil p)
  rw [if_neg hne]
  have hstep : ∀ N : ℕ × ℕ → Color, r.mark frame cm N p = cm.color := by
    intro N
    unfold ROI.mark
    rw [if_pos hmem]
  exact (markRegion_apply_of_none hrest).trans (hstep _)

theorem finalMask_apply_of_last {regions : List ROI} {classes : List ColorMask}
    {frame : Frame} {cm : ColorMask} {l1 l2 : List ColorMask} {r : ROI} {p : ℕ × ℕ}
    (hsplit : classes = l1 ++ cm :: l2)
    (hmatch : cm.matchesB (frame p) = true)
    (hrest : ∀ c ∈ l2, ¬ c.matchesB (frame p) = true)
    (hr : r ∈ regions) (hp : p ∈ r.coords) :
    finalMask regions classes frame p = cm.color := by
  subst hsplit
  unfold finalMask
  have key : ∀ (rs : List ROI) (M : ℕ × ℕ → Color),
      (∃ s ∈ rs, p ∈ s.coords) →
      List.foldl (fun M r => markRegion r frame (l1 ++ cm :: l2) M) M rs p = cm.color := by
    intro rs
    induction rs with
    | nil => rintro M ⟨s, hs, _⟩; exact absurd hs (List.not_mem_nil s)
    | cons s t ih =>
      rintro M ⟨s2, hs2, hps2⟩
      rw [List.foldl_cons]
      by_cases hin : ∃ u ∈ t, p ∈ u.coords
      · exact ih _ hin
      · have hs2s : s2 = s := by
          rcases List.mem_cons.mp hs2 with h | h
          · exact h
          · exact absurd ⟨s2, h, hps2⟩ hin
        subst hs2s
        have hmm : p ∈ matchedCoords s2 frame cm := mem_matchedCoords.mpr ⟨hps2, hmatch⟩
        have hrest2 : ∀ c ∈ l2, p ∉ matchedCoords s2 frame c := by
          intro c hc hmc
          exact hrest c hc (mem_matchedCoords.mp hmc).2
        have hall : ∀ (rs2 : List ROI) (N : ℕ × ℕ → Color), (¬ ∃ u ∈ rs2, p ∈ u.coords) →
            List.foldl (fun M r => markRegion r frame (l1 ++ cm :: l2) M) N rs2 p = N p := by
          intro rs2
          induction rs2 with
          | nil => intro N _; rfl
          | cons u v ihv =>
            intro N hnu
            rw [List.foldl_cons]
            have h1 : ¬ ∃ z ∈ v, p ∈ z.coords := by
              intro ⟨z, hz, hpz⟩
              exact hnu ⟨z, List.mem_cons_of_mem u hz, hpz⟩
            rw [ihv _ h1]
            apply markRegion_apply_of_none
            intro c _ hmc
            exact hnu ⟨u, List.mem_cons_self u v, (mem_matchedCoords.mp hmc).1⟩
        rw [hall t _ hin]
        exact markRegion_apply_of_last hmm hrest2
  exact key regions _ ⟨r, hr, hp⟩

theorem finalMask_apply_of_no_match {regions : List ROI} {classes : List ColorMask}
    {frame : Frame} {p : ℕ × ℕ}
    (h : ∀ cm ∈ classes, ¬ cm.matchesB (frame p) = true) :
    finalMask regions classes frame p = zeroColor := by
  unfold finalMask
  have key : ∀ (rs : List ROI) (M : ℕ × ℕ → Color),
      List.foldl (fun M r => markRegion r frame classes M) M rs p = M p := by
    intro rs
    induction rs with
    | nil => intro M; rfl
    | cons s t ih =>
      intro M
      rw [List.foldl_cons, ih]
      apply markRegion_apply_of_none
      intro c hc hmc
      exact h c hc (mem_matchedCoords.mp hmc).2
  rw [key regions _]

/-! ### Sum and centroid lemmas -/

theorem sum_map_shift {α : Type} (m : List α) (f g : α → ℚ) :
    (m.map fun p => (f p + 1) * g p).sum
      = (m.map fun p => f p * g p).sum + (m.map g).sum := by
  have h1 : (m.map fun p => (f p + 1) * g p) = m.map fun p => f p * g p + g p := by
    apply List.map_congr_left
    intro a _
    ring
  rw [h1, List.sum_map_add]

/-- The package variant's `xrepr + 1` is exactly the weighted centroid of
the 1-indexed matched coordinates (here for any coordinate projection). -/
theorem wmean_succ_shift {m : List (ℕ × ℕ)} (f : (ℕ × ℕ) → ℚ) (g : (ℕ × ℕ) → ℚ)
    (hS : 0 < (m.map g).sum) :
    wmean (m.map f) (m.map g) + 1
      = (m.map fun p => (f p + 1) * g p).sum / (m.map g).sum := by
  rw [wmean_map, sum_map_shift, add_div, div_self hS.ne']

theorem sumLum_pos_of_matched {r : ROI} {frame : Frame} {cm : ColorMask}
    (h0 : 0 ≤ cm.onset) (hne : matchedCoords r frame cm ≠ []) :
    0 < ((matchedCoords r frame cm).map fun p => lum (frame p)).sum :=
  sumLum_pos hne fun p hp => lum_pos_of_matchesB h0 (mem_matchedCoords.mp hp).2

theorem classValuesX_eq_centroid {r : ROI} {frame : Frame} {cm : ColorMask}
    (h0 : 0 ≤ cm.onset) (hne : matchedCoords r frame cm ≠ []) :
    classValuesX r frame cm
      = Value.num
          (((matchedCoords r frame cm).map fun p => ((p.1 : ℚ) + 1) * lum (frame p)).sum
            / ((matchedCoords r frame cm).map fun p => lum (frame p)).sum) := by
  unfold classValuesX
  dsimp only
  rw [if_neg (by simpa [List.isEmpty_iff] using hne)]
  congr 1
  exact wmean_succ_shift _ _ (sumLum_pos_of_matched h0 hne)

theorem classValuesY_eq_centroid {r : ROI} {frame : Frame} {cm : ColorMask}
    (h0 : 0 ≤ cm.onset) (hne : matchedCoords r frame cm ≠ []) :
    classValuesY r frame cm
      = Value.num
          (((matchedCoords r frame cm).map fun p => ((p.2 : ℚ) + 1) * lum (frame p)).sum
            / ((matchedCoords r frame cm).map fun p => lum (frame p)).sum) := by
  unfold classValuesY
  dsimp only
  rw [if_neg (by simpa [List.isEmpty_iff] using hne)]
  congr 1
  exact wmean_succ_shift _ _ (sumLum_pos_of_matched h0 hne)

/-! ### Legacy/package equivalence lemmas -/

theorem legacyMatched_perm {W H x y w h : ℕ} {frame : Frame} {cm : ColorMask}
    (hw : x + w ≤ W) (hh : y + h ≤ H) :
    (legacyMatched W H ⟨x, y, w, h⟩ frame cm).Perm
      (matchedCoords (mkRectROI x y w h) frame cm) := by
  apply (List.perm_ext_iff_of_nodup ?_ ?_).mpr
  · intro p
    obtain ⟨a, b⟩ := p
    simp only [legacyMatched, matchedCoords, mkRectROI, List.mem_filter,
      LegacyROI.containsB, Bool.and_eq_true, decide_eq_true_eq]
    constructor
    · rintro ⟨_, ⟨hx1, hx2, hy1, hy2⟩, hm⟩
      exact ⟨mem_coordsRect.mpr ⟨hx1, hx2, hy1, hy2⟩, hm⟩
    · rintro ⟨hmem, hm⟩
      obtain ⟨hx1, hx2, hy1, hy2⟩ := mem_coordsRect.mp hmem
      exact ⟨mem_coordsRect.mpr ⟨by omega, by omega, by omega, by omega⟩,
        ⟨hx1, hx2, hy1, hy2⟩, hm⟩
  · exact List.Nodup.filter _ (coordsRect_nodup 0 0 W H)
  · exact List.Nodup.filter _ (coordsRect_nodup x y w h)

theorem legacyClassValuesX_eq {W H x y w h : ℕ} {frame : Frame} {cm : ColorMask}
    (hw : x + w ≤ W) (hh : y + h ≤ H) (h0 : 0 ≤ cm.onset) :
    legacyClassValuesX W H ⟨x, y, w, h⟩ frame cm
      = classValuesX (mkRectROI x y w h) frame cm := by
  have hperm := @legacyMatched_perm W H x y w h frame cm hw hh
  by_cases hne : matchedCoords (mkRectROI x y w h) frame cm = []
  · have h1 : legacyMatched W H ⟨x, y, w, h⟩ frame cm = [] := by
      rw [hne] at hperm
      exact hperm.eq_nil
    unfold legacyClassValuesX classValuesX
    dsimp only
    rw [if_pos (by simp [h1]), if_pos (by simp [hne])]
  · have h1 : legacyMatched W H ⟨x, y, w, h⟩ frame cm ≠ [] := by
      intro hc
      rw [hc] at hperm
      exact hne hperm.nil_eq.symm
    have hS : 0 < ((matchedCoords (mkRectROI x y w h) frame cm).map
        fun p => lum (frame p)).sum := sumLum_pos_of_matched h0 hne
    unfold legacyClassValuesX
    dsimp only
    rw [if_neg (by simpa [List.isEmpty_iff] using h1),
      classValuesX_eq_centroid h0 hne]
    congr 1
    rw [wmean_map]
    rw [(hperm.map fun p => ((p.1 : ℚ) + 1) * lum (frame p)).sum_eq,
      (hperm.map fun p => lum (frame p)).sum_eq]

theorem legacyClassValuesY_eq {W H x y w h : ℕ} {frame : Frame} {cm : ColorMask}
    (hw : x + w ≤ W) (hh : y + h ≤ H) (h0 : 0 ≤ cm.onset) :
    legacyClassValuesY W H ⟨x, y, w, h⟩ frame cm
      = classValuesY (mkRectROI x y w h) frame cm := by
  have hperm := @legacyMatched_perm W H x y w h frame cm hw hh
  by_cases hne : matchedCoords (mkRectROI x y w h) frame cm = []
  · have h1 : legacyMatched W H ⟨x, y, w, h⟩ frame cm = [] := by
      rw [hne] at hperm
      exact hperm.eq_nil
    unfold legacyClassValuesY classValuesY
    dsimp only
    rw [if_pos (by simp [h1]), if_pos (by simp [hne])]
  · have h1 : legacyMatched W H ⟨x, y, w, h⟩ frame cm ≠ [] := by
      intro hc
      rw [hc] at hperm
      exact hne hperm.nil_eq.symm
    have hS : 0 < ((matchedCoords (mkRectROI x y w h) frame cm).map
        fun p => lum (frame p)).sum := sumLum_pos_of_matched h0 hne
    unfold legacyClassValuesY
    dsimp only
    rw [if_neg (by simpa [List.isEmpty_iff] using h1),
      classValuesY_eq_centroid h0 hne]
    congr 1
    rw [wmean_map]
    rw [(hperm.map fun p => ((p.2 : ℚ) + 1) * lum (frame p)).sum_eq,
      (hperm.map fun p => lum (frame p)).sum_eq]

/-! ### String lemmas -/

theorem commaJoin_cons_cons (s b : String) (t : List String) :
    commaJoin (s :: b :: t) = s ++ "," ++ commaJoin (b :: t) := rfl

theorem commaJoin_pairs (f g : String → String) (names : List String) :
    commaJoin (names.map fun c => (f c ++ ",") ++ g c)
      = commaJoin (names.flatMap fun c => [f c, g c]) := by
  induction names with
  | nil => rfl
  | cons a t ih =>
    cases t with
    | nil => simp [commaJoin, String.append_assoc]
    | cons b t2 =>
      simp only [List.map_cons, List.flatMap_cons, List.cons_append, List.nil_append] at ih ⊢
      rw [commaJoin_cons_cons, commaJoin_cons_cons, commaJoin_cons_cons, ih]
      simp [String.append_assoc]

theorem maskEntries_split (c : String) :
    maskEntries c = (c ++ "_CM_X") ++ "," ++ (c ++ "_CM_Y") := by
  unfold maskEntries
  have h : "_CM_X," = "_CM_X" ++ "," := rfl
  rw [h]
  simp [String.append_assoc]

theorem frac4_length (m : ℕ) : (frac4 m).length = 4 := rfl

/-! ### Small helpers for the claim theorems -/

theorem classValuesX_of_ne {r : ROI} {frame : Frame} {cm : ColorMask}
    (hne : matchedCoords r frame cm ≠ []) :
    classValuesX r frame cm
      = Value.num (wmean ((matchedCoords r frame cm).map fun p => (p.1 : ℚ))
          ((matchedCoords r frame cm).map fun p => lum (frame p)) + 1) := by
  unfold classValuesX
  dsimp only
  rw [if_neg (by simpa [List.isEmpty_iff] using hne)]

theorem classValuesY_of_ne {r : ROI} {frame : Frame} {cm : ColorMask}
    (hne : matchedCoords r frame cm ≠ []) :
    classValuesY r frame cm
      = Value.num (wmean ((matchedCoords r frame cm).map fun p => (p.2 : ℚ))
          ((matchedCoords r frame cm).map fun p => lum (frame p)) + 1) := by
  unfold classValuesY
  dsimp only
  rw [if_neg (by simpa [List.isEmpty_iff] using hne)]

theorem zipWith_mul_map_right (vals ws : List ℚ) (c : ℚ) :
    List.zipWith (fun a b => a * b) vals (ws.map fun w2 => c * w2)
      = (List.zipWith (fun a b => a * b) vals ws).map fun z => c * z := by
  induction vals generalizing ws with
  | nil => simp
  | cons a t ih =>
    cases ws with
    | nil => simp
    | cons b t2 =>
      simp only [List.map_cons, List.zipWith_cons_cons]
      rw [ih]
      congr 1
      ring

theorem sum_map_mul_left_q (l : List ℚ) (c : ℚ) :
    (l.map fun z => c * z).sum = c * l.sum := by
  induction l with
  | nil => simp
  | cons a t ih => simp [ih, mul_add]

theorem eq_take_cons_drop {α : Type} {l : List α} {j : ℕ} {a : α}
    (h : l.get? j = some a) :
    l = l.take j ++ a :: l.drop (j + 1) := by
  induction l generalizing j with
  | nil => simp at h
  | cons b t ih =>
    cases j with
    | zero =>
      simp only [List.get?_cons_zero, Option.some_inj] at h
      subst h
      simp
    | succ n =>
      simp only [List.get?_cons_succ] at h
      have h2 := ih h
      calc b :: t = b :: (t.take n ++ a :: t.drop (n + 1)) := by rw [← h2]
        _ = (b :: t).take (n + 1) ++ a :: (b :: t).drop (n + 1 + 1) := by simp

/-! ## Claim theorems -/

/-- Claim C2 (counterexample): the pixel (255,0,1) is chromatic, yet its
stored hue is 360, which is not in [0,360); the table applies no mod 360. -/
theorem c2_counterexample :
    ¬((Pixel.mk 255 0 1).r = (Pixel.mk 255 0 1).g
        ∧ (Pixel.mk 255 0 1).g = (Pixel.mk 255 0 1).b) ∧
    hue ⟨255, 0, 1⟩ = 360 ∧ ¬ hue ⟨255, 0, 1⟩ < 360 := by
  refine ⟨by decide, hue_255_0_1, ?_⟩
  rw [hue_255_0_1]
  omega

/-- Claim C2 (amended): for every pixel with channels in [0,255], the
stored hue is the sentinel −1 exactly when R=G=B; for every other pixel it
is an integer in the closed range [0,360], computed by the
dominant-channel formula with no final reduction mod 360 (360 is attained,
see `c2_counterexample`). -/
theorem c2_hue_table (p : Pixel)
    (hr : p.r ≤ 255) (hg : p.g ≤ 255) (hb : p.b ≤ 255) :
    (hue p = -1 ↔ p.r = p.g ∧ p.g = p.b) ∧
    (¬(p.r = p.g ∧ p.g = p.b) → 0 ≤ hue p ∧ hue p ≤ 360) :=
  ⟨hue_eq_neg_one_iff p, hue_bounds p⟩

/-- Witness for `c2_hue_table` at the concrete pixel (255,0,1). -/
theorem c2_hue_table_witness : 0 ≤ hue ⟨255, 0, 1⟩ ∧ hue ⟨255, 0, 1⟩ ≤ 360 :=
  (c2_hue_table ⟨255, 0, 1⟩ (by norm_num) (by norm_num) (by norm_num)).2 (by decide)

/-- Claim C3 (counterexample): in the package variant a single-pixel
rectangular region has a coordinate set with fewer than 2 elements, yet
`is_empty()` is false, and `__start__` does not skip it when opening
result sinks. -/
theorem c3_counterexample :
    (mkRectROI 0 0 1 1).coords.length < 2 ∧
    ROI.is_empty (mkRectROI 0 0 1 1) = false ∧
    startOpenRegions [("r", mkRectROI 0 0 1 1)] = [("r", mkRectROI 0 0 1 1)] := by
  refine ⟨by decide, by decide, by decide⟩

/-- Claim C3 (amended): the package variant's `is_empty()` is true iff the
coordinate set is empty (0 elements) — for a rectangle iff `w*h = 0` — so
a single-pixel region is not treated as empty and is not skipped; only
the legacy variant's rectangular `is_empty()` tests `w*h <= 1`. -/
theorem c3_is_empty (r : ROI) (x y w h : ℕ) (l : LegacyROI) :
    (r.is_empty = true ↔ r.coords.length = 0) ∧
    (ROI.is_empty (mkRectROI x y w h) = true ↔ w * h = 0) ∧
    (l.is_empty = true ↔ l.w * l.h ≤ 1) := by
  refine ⟨?_, ?_, ?_⟩
  · simp [ROI.is_empty]
  · show ((mkRectROI x y w h).coords.length == 0) = true ↔ w * h = 0
    have hlen : (mkRectROI x y w h).coords.length = w * h := coordsRect_length x y w h
    rw [hlen]
    simp
  · simp [LegacyROI.is_empty]

/-- Claim C5: when the engine's `__start__` raises inside `__enter__`, the
exception propagates with no frame read, but — because Python's `with`
calls `__exit__` only after a successful `__enter__` — the already-opened
frame source is NOT closed; the source is closed when `__done__` raises
after a normal stream (the `finally` in `__exit__`).  The claim's
"the source is still closed on the start path" is the code bug. -/
theorem c5_start_leaves_reader_open :
    (runProcessor 10 true none false).raised = true ∧
    (runProcessor 10 true none false).framesRead = 0 ∧
    (runProcessor 10 true none false).readerOpened = true ∧
    (runProcessor 10 true none false).readerClosed = false ∧
    (runProcessor 10 false none true).readerClosed = true := by
  refine ⟨rfl, rfl, rfl, rfl, rfl⟩

/-- Claim C6: the flattened coordinate sequence of a rectangular region
`{x,y,w,h}` has exactly `w*h` entries, no duplicates, and as a set it is
exactly the Cartesian product `[x,x+w) × [y,y+h)`. -/
theorem c6_rect_coords (x y w h : ℕ) :
    (mkRectROI x y w h).coords.length = w * h ∧
    (∀ a b : ℕ, (a, b) ∈ (mkRectROI x y w h).coords ↔
      x ≤ a ∧ a < x + w ∧ y ≤ b ∧ b < y + h) ∧
    (mkRectROI x y w h).coords.Nodup :=
  ⟨coordsRect_length x y w h, fun _ _ => mem_coordsRect, coordsRect_nodup x y w h⟩

/-- Claim C8: the weighted centroid reduction `wmean` used by
`__update__` is invariant under scaling every weight by a positive
constant (exact arithmetic). -/
theorem c8_scale_invariance (vals ws : List ℚ) (c : ℚ)
    (hne : vals ≠ []) (hlen : ws.length = vals.length)
    (hpos : ∀ w2 ∈ ws, 0 < w2) (hc : 0 < c) :
    wmean vals (ws.map fun w2 => c * w2) = wmean vals ws := by
  unfold wmean
  rw [zipWith_mul_map_right, sum_map_mul_left_q, sum_map_mul_left_q]
  exact mul_div_mul_left _ _ hc.ne'

/-- Witness for `c8_scale_invariance` at a concrete weight vector. -/
theorem c8_scale_invariance_witness :
    wmean [1, 2] ([1, 1].map fun w2 => (2 : ℚ) * w2) = wmean [1, 2] [1, 1] := by
  apply c8_scale_invariance [1, 2] [1, 1] 2 (by simp) (by simp) ?_ (by norm_num)
  intro w2 hw2
  rcases List.mem_cons.mp hw2 with h | h
  · rw [h]; norm_num
  · simp only [List.mem_singleton] at h
    rw [h]; norm_num

/-- Claim C1: for every frame update, every region with an open result
sink, and every color class with at least one matched pixel, the row of
that region appears in the update's output, and the two fields emitted for
that class are the luminance-weighted centroids of the matched pixels in
the 1-indexed convention (the 0-based coordinates shifted by +1), i.e.
`Σ((x+1)·lum)/Σ(lum)` and `Σ((y+1)·lum)/Σ(lum)` over matched pixels only.
The hue interval is assumed to lie at non-negative hues, so matched pixels
are chromatic and the luminance sum is positive. -/
theorem c1_weighted_centroid
    (regions : List ROI) (classes : List ColorMask) (frame : Frame) (i k : ℕ)
    (r : ROI) (cm : ColorMask)
    (hr : r ∈ regions)
    (hk : classes.get? k = some cm)
    (h0 : 0 ≤ cm.onset)
    (hne : matchedCoords r frame cm ≠ []) :
    (i, regionValues classes r frame) ∈ updateRows regions classes frame i ∧
    (regionValues classes r frame).get? (2 * k)
      = some (Value.num
          (((matchedCoords r frame cm).map fun p => ((p.1 : ℚ) + 1) * lum (frame p)).sum
            / ((matchedCoords r frame cm).map fun p => lum (frame p)).sum)) ∧
    (regionValues classes r frame).get? (2 * k + 1)
      = some (Value.num
          (((matchedCoords r frame cm).map fun p => ((p.2 : ℚ) + 1) * lum (frame p)).sum
            / ((matchedCoords r frame cm).map fun p => lum (frame p)).sum)) := by
  refine ⟨List.mem_map.mpr ⟨r, hr, rfl⟩, ?_, ?_⟩
  · rw [regionValues, flatMap_pair_get_even, hk, Option.map_some',
      classValuesX_eq_centroid h0 hne]
  · rw [regionValues, flatMap_pair_get_odd, hk, Option.map_some',
      classValuesY_eq_centroid h0 hne]

/-- Claim C4: for a region with an open sink and a color class with zero
matched pixels, the two emitted fields are the NaN pair, the class's
`mark` writes nothing, and if no class matches any pixel of the region
then every pixel of the region stays at the all-zero background in the
annotated frame. -/
theorem c4_nan_and_unmarked
    (regions : List ROI) (classes : List ColorMask) (frame : Frame) (k : ℕ)
    (r : ROI) (cm : ColorMask)
    (hr : r ∈ regions)
    (hk : classes.get? k = some cm)
    (hempty : matchedCoords r frame cm = []) :
    (regionValues classes r frame).get? (2 * k) = some Value.nan ∧
    (regionValues classes r frame).get? (2 * k + 1) = some Value.nan ∧
    (∀ M : ℕ × ℕ → Color, r.mark frame cm M = M) ∧
    ((∀ cm2 ∈ classes, matchedCoords r frame cm2 = []) →
      ∀ p ∈ r.coords, finalMask regions classes frame p = zeroColor) := by
  refine ⟨?_, ?_, ?_, ?_⟩
  · rw [regionValues, flatMap_pair_get_even, hk, Option.map_some']
    unfold classValuesX
    dsimp only
    rw [if_pos (by simp [hempty])]
  · rw [regionValues, flatMap_pair_get_odd, hk, Option.map_some']
    unfold classValuesY
    dsimp only
    rw [if_pos (by simp [hempty])]
  · intro M
    funext p
    apply mark_apply_of_not_matched
    rw [hempty]
    exact List.not_mem_nil p
  · intro hall p hp
    apply finalMask_apply_of_no_match
    intro cm2 hcm2 hmB
    have hmm : p ∈ matchedCoords r frame cm2 := mem_matchedCoords.mpr ⟨hp, hmB⟩
    rw [hall cm2 hcm2] at hmm
    exact List.not_mem_nil p hmm

/-- Claim C7: when a pixel of an open region is matched by two classes
(class memberships are independent: both matched coordinate sets contain
the pixel, and both rows emit a centroid over their own matched set), the
annotated frame at that pixel holds the display color of the later class
in declaration order when no still-later class matches it (later classes
overwrite earlier ones, no blending). -/
theorem c7_overlapping_classes
    (regions : List ROI) (classes : List ColorMask) (frame : Frame)
    (r : ROI) (p : ℕ × ℕ) (ci cj : ColorMask) (i j : ℕ)
    (hr : r ∈ regions) (hp : p ∈ r.coords)
    (hij : i < j)
    (hi : classes.get? i = some ci) (hj : classes.get? j = some cj)
    (hmi : ci.matchesB (frame p) = true) (hmj : cj.matchesB (frame p) = true)
    (hlater : ∀ c ∈ classes.drop (j + 1), ¬ c.matchesB (frame p) = true) :
    p ∈ matchedCoords r frame ci ∧ p ∈ matchedCoords r frame cj ∧
    (regionValues classes r frame).get? (2 * i)
      = some (Value.num (wmean ((matchedCoords r frame ci).map fun q => (q.1 : ℚ))
          ((matchedCoords r frame ci).map fun q => lum (frame q)) + 1)) ∧
    (regionValues classes r frame).get? (2 * j)
      = some (Value.num (wmean ((matchedCoords r frame cj).map fun q => (q.1 : ℚ))
          ((matchedCoords r frame cj).map fun q => lum (frame q)) + 1)) ∧
    finalMask regions classes frame p = cj.color := by
  have hpi : p ∈ matchedCoords r frame ci := mem_matchedCoords.mpr ⟨hp, hmi⟩
  have hpj : p ∈ matchedCoords r frame cj := mem_matchedCoords.mpr ⟨hp, hmj⟩
  refine ⟨hpi, hpj, ?_, ?_, ?_⟩
  · rw [regionValues, flatMap_pair_get_even, hi, Option.map_some',
      classValuesX_of_ne (List.ne_nil_of_mem hpi)]
  · rw [regionValues, flatMap_pair_get_even, hj, Option.map_some',
      classValuesX_of_ne (List.ne_nil_of_mem hpj)]
  · exact finalMask_apply_of_last (eq_take_cons_drop hj) hmj hlater hr hp

/-- Claim C10: on a rectangular region that lies entirely inside the frame
(and color classes over non-negative hues, so that every matched luminance
sum is positive), the legacy engine variant — full-frame classification,
mask clipped to the rectangle, 1-based full-frame grids — and the package
variant — crop first, classify the cropped vector, add 1 to each centroid
coordinate — emit identical value lists for every color class in the same
declaration order. -/
theorem c10_variants_agree
    (W H x y w h : ℕ) (frame : Frame) (classes : List ColorMask)
    (hw : x + w ≤ W) (hh : y + h ≤ H)
    (h0 : ∀ cm ∈ classes, 0 ≤ cm.onset) :
    legacyRegionValues W H ⟨x, y, w, h⟩ frame classes
      = regionValues classes (mkRectROI x y w h) frame := by
  unfold legacyRegionValues regionValues
  induction classes with
  | nil => rfl
  | cons cm t ih =>
    simp only [List.flatMap_cons]
    rw [legacyClassValuesX_eq hw hh (h0 cm (List.mem_cons_self cm t)),
      legacyClassValuesY_eq hw hh (h0 cm (List.mem_cons_self cm t)),
      ih fun c hc => h0 c (List.mem_cons_of_mem cm hc)]

/-- Claim C9: the annotated video goes to `maskdir/MASK_basename.mp4`; a
result sink is opened for every non-empty region at
`resultdir/Results_basename_regionname.csv`; the header is `Slice,`
followed by the two column names `C_CM_X`, `C_CM_Y` of each class in
declaration order, comma-joined; a data row is the frame index followed by
the comma-joined values, each formatted with exactly 4 digits after the
decimal point. -/
theorem c9_output_format
    (maskdir resultdir basename roiname : String) (names : List String)
    (regions : List (String × ROI)) (roi : ROI) (i : ℕ) (vals : List Value) (q : ℚ)
    (hmem : (roiname, roi) ∈ regions) (hne : roi.is_empty = false) :
    maskPath maskdir basename = maskdir ++ "/" ++ ("MASK_" ++ basename ++ ".mp4") ∧
    headerLine names
      = "Slice," ++ commaJoin (names.flatMap fun c => [c ++ "_CM_X", c ++ "_CM_Y"]) ∧
    resultPath resultdir basename roiname ∈ startResultPaths resultdir basename regions ∧
    resultPath resultdir basename roiname
      = resultdir ++ "/" ++ ("Results_" ++ basename ++ "_" ++ roiname ++ ".csv") ∧
    dataRow i vals = toString i ++ "," ++ commaJoin (vals.map fmt4) ∧
    (∃ intpart : String,
      fmt4 (Value.num q)
        = intpart ++ "." ++ frac4 ((roundHE (q * 10000)).natAbs % 10000) ∧
      (frac4 ((roundHE (q * 10000)).natAbs % 10000)).length = 4) := by
  refine ⟨rfl, ?_, ?_, rfl, rfl, ?_⟩
  · rw [headerLine]
    have hm2 : names.map maskEntries
        = names.map fun c => ((c ++ "_CM_X") ++ ",") ++ (c ++ "_CM_Y") :=
      List.map_congr_left fun c _ => maskEntries_split c
    rw [hm2, commaJoin_pairs]
  · unfold startResultPaths startOpenRegions
    apply List.mem_map.mpr
    exact ⟨(roiname, roi), List.mem_filter.mpr ⟨hmem, by simp [hne]⟩, rfl⟩
  · exact ⟨_, rfl, frac4_length _⟩

/-! ### Concrete evaluations used by the witnesses -/

theorem coords_2x1 : (mkRectROI 0 0 2 1).coords = [(0, 0), (1, 0)] := by decide

theorem matchesB_c1red :
    (ColorMask.mk 0 100 (10, 20, 30)).matchesB ⟨255, 0, 0⟩ = true := by
  rw [matchesB_iff, hue_pure_red]
  norm_num

theorem matchesB_c2red :
    (ColorMask.mk 0 50 (5, 6, 7)).matchesB ⟨255, 0, 0⟩ = true := by
  rw [matchesB_iff, hue_pure_red]
  norm_num

theorem matchesB_gray_false :
    (ColorMask.mk 0 100 (10, 20, 30)).matchesB ⟨5, 5, 5⟩ = false := by
  have hg : hue ⟨5, 5, 5⟩ = -1 := (hue_eq_neg_one_iff _).mpr ⟨rfl, rfl⟩
  rw [ColorMask.matchesB, hg, decide_eq_false_iff_not]
  norm_num

theorem matched_red_c1 :
    matchedCoords (mkRectROI 0 0 2 1) (fun _ => ⟨255, 0, 0⟩) ⟨0, 100, (10, 20, 30)⟩
      = [(0, 0), (1, 0)] := by
  unfold matchedCoords
  rw [coords_2x1]
  simp [List.filter, matchesB_c1red]

theorem matched_gray_empty :
    matchedCoords (mkRectROI 0 0 2 1) (fun _ => ⟨5, 5, 5⟩) ⟨0, 100, (10, 20, 30)⟩
      = [] := by
  unfold matchedCoords
  rw [coords_2x1]
  simp [List.filter, matchesB_gray_false]

/-! ### Witnesses -/

/-- Witness for `c1_weighted_centroid`: a 2×1 region of pure red pixels;
uniform luminance cancels, the 1-indexed x-centroid is 3/2. -/
theorem c1_weighted_centroid_witness :
    (regionValues [⟨0, 100, (10, 20, 30)⟩] (mkRectROI 0 0 2 1)
        fun _ => ⟨255, 0, 0⟩).get? 0
      = some (Value.num (3/2)) := by
  have h := c1_weighted_centroid [mkRectROI 0 0 2 1] [⟨0, 100, (10, 20, 30)⟩]
    (fun _ => ⟨255, 0, 0⟩) 0 0 (mkRectROI 0 0 2 1) ⟨0, 100, (10, 20, 30)⟩
    (List.mem_singleton.mpr rfl) rfl le_rfl
    (by rw [matched_red_c1]; simp)
  have h2 := h.2.1
  rw [matched_red_c1] at h2
  have h3 : (2 * 0 : ℕ) = 0 := rfl
  rw [h3] at h2
  rw [h2]
  congr 2
  norm_num [lum]

/-- Witness for `c4_nan_and_unmarked`: a gray frame matches no class; the
first emitted field is NaN and the annotated frame stays zero. -/
theorem c4_nan_and_unmarked_witness :
    (regionValues [⟨0, 100, (10, 20, 30)⟩] (mkRectROI 0 0 2 1)
        fun _ => ⟨5, 5, 5⟩).get? 0 = some Value.nan ∧
    finalMask [mkRectROI 0 0 2 1] [⟨0, 100, (10, 20, 30)⟩]
        (fun _ => ⟨5, 5, 5⟩) (0, 0) = zeroColor := by
  have h := c4_nan_and_unmarked [mkRectROI 0 0 2 1] [⟨0, 100, (10, 20, 30)⟩]
    (fun _ => ⟨5, 5, 5⟩) 0 (mkRectROI 0 0 2 1) ⟨0, 100, (10, 20, 30)⟩
    (List.mem_singleton.mpr rfl) rfl matched_gray_empty
  refine ⟨by simpa using h.1, ?_⟩
  apply h.2.2.2
  · intro cm2 hcm2
    have he := List.mem_singleton.mp hcm2
    subst he
    exact matched_gray_empty
  · decide

/-- Witness for `c7_overlapping_classes`: two classes over [0,100) and
[0,50) both match pure red; the annotated frame shows the second class's
display color. -/
theorem c7_overlapping_classes_witness :
    (0, 0) ∈ matchedCoords (mkRectROI 0 0 2 1) (fun _ => ⟨255, 0, 0⟩)
        ⟨0, 100, (10, 20, 30)⟩ ∧
    (0, 0) ∈ matchedCoords (mkRectROI 0 0 2 1) (fun _ => ⟨255, 0, 0⟩)
        ⟨0, 50, (5, 6, 7)⟩ ∧
    finalMask [mkRectROI 0 0 2 1] [⟨0, 100, (10, 20, 30)⟩, ⟨0, 50, (5, 6, 7)⟩]
        (fun _ => ⟨255, 0, 0⟩) (0, 0) = (5, 6, 7) := by
  have h := c7_overlapping_classes [mkRectROI 0 0 2 1]
    [⟨0, 100, (10, 20, 30)⟩, ⟨0, 50, (5, 6, 7)⟩] (fun _ => ⟨255, 0, 0⟩)
    (mkRectROI 0 0 2 1) (0, 0) ⟨0, 100, (10, 20, 30)⟩ ⟨0, 50, (5, 6, 7)⟩ 0 1
    (List.mem_singleton.mpr rfl) (by decide) (by norm_num) rfl rfl
    matchesB_c1red matchesB_c2red (by simp)
  exact ⟨h.1, h.2.1, h.2.2.2.2⟩

/-- Witness for `c10_variants_agree` on a concrete 2×1 frame. -/
theorem c10_variants_agree_witness :
    legacyRegionValues 2 1 ⟨0, 0, 2, 1⟩ (fun _ => ⟨255, 0, 0⟩)
        [⟨0, 100, (10, 20, 30)⟩]
      = regionValues [⟨0, 100, (10, 20, 30)⟩] (mkRectROI 0 0 2 1)
          fun _ => ⟨255, 0, 0⟩ := by
  apply c10_variants_agree 2 1 0 0 2 1 _ _ (by norm_num) (by norm_num)
  intro cm hcm
  have he := List.mem_singleton.mp hcm
  subst he
  exact le_rfl

/-- Witness for `c9_output_format` at concrete names. -/
theorem c9_output_format_witness :
    resultPath "res" "v" "R" ∈ startResultPaths "res" "v" [("R", mkRectROI 0 0 2 1)] ∧
    headerLine ["a"]
      = "Slice," ++ commaJoin (["a"].flatMap fun c => [c ++ "_CM_X", c ++ "_CM_Y"]) := by
  have h := c9_output_format "msk" "res" "v" "R" ["a"] [("R", mkRectROI 0 0 2 1)]
    (mkRectROI 0 0 2 1) 3 [Value.nan] 0 (List.mem_singleton.mpr rfl) (by decide)
  exact ⟨h.2.2.1, h.2.1⟩

end VideoBatch
